import Mathlib

/-!
Verification of the `callbacks.fp16` mixed-precision training callback
(`MixedPrecision`) described in `docs_src/callbacks.fp16.ipynb`.

The repository ships only the rendered documentation of the callback: the
notebook shows the class and hook signatures (with their defaults) and the
narrative of what each lifecycle hook does, while the implementation file
`fastai/callbacks/fp16.py` is not part of this slice.  The hooks are
therefore modelled from the specification's words.  Values are rationals
(exact arithmetic); the storage representation of a tensor is tracked by an
explicit precision tag.
-/

/-- Storage precision of a tensor or parameter: reduced (`fp16`, half
precision) or full (`fp32`, single precision). -/
inductive Precision where
  | fp16 : Precision
  | fp32 : Precision
deriving DecidableEq, Repr

/-- A trainable parameter: its value, its accumulated gradient, the
precision it is stored in, and whether it belongs to a normalization
(batchnorm) layer, which the spec requires to stay in full precision. -/
structure Param where
  value : ℚ
  grad : ℚ
  prec : Precision
  isBatchNorm : Bool
deriving DecidableEq, Repr

/-- An output tensor: a list of values plus the precision they are stored
in. -/
structure Tensor where
  values : List ℚ
  prec : Precision
deriving DecidableEq, Repr

/-- Configuration of the `MixedPrecision` callback, as shown in the
rendered signature: `MixedPrecision(learn, loss_scale=512.0,
flat_master=False)`. -/
structure MPConfig where
  loss_scale : ℚ
  flat_master : Bool
deriving DecidableEq, Repr

/-- State carried by the `MixedPrecision` callback across hooks: its
configuration, the compute copy of the model parameters, the
full-precision master copy retained at `on_train_begin`, and the
precisions recorded at `on_train_begin` so `on_train_end` can undo the
conversion. -/
structure MPState where
  cfg : MPConfig
  model_params : List Param
  master_params : List Param
  saved_precs : List Precision
deriving DecidableEq, Repr

namespace MixedPrecision

/-- Modelled from the spec: the rendered signature of the missing
constructor `MixedPrecision.__init__` records `loss_scale` and
`flat_master`. -/
def init (loss_scale : ℚ) (flat_master : Bool) : MPConfig :=
  ⟨loss_scale, flat_master⟩

/-- Modelled from the spec: the constructor applied with its documented
default arguments `loss_scale=512.0`, `flat_master=False`. -/
def init_default : MPConfig :=
  init 512 false

/-- Modelled from the spec: the missing `on_train_begin` switches every
eligible parameter into reduced precision (excluding batchnorm
parameters, which keep their precision), retains a full-precision shadow
copy of the parameters for the optimizer, and records the prior
precisions so that `on_train_end` can reverse the conversion. -/
def on_train_begin (s : MPState) : MPState :=
  { s with
    saved_precs := s.model_params.map Param.prec
    master_params := s.model_params.map (fun p => { p with prec := Precision.fp32 })
    model_params := s.model_params.map (fun p =>
      if p.isBatchNorm then p else { p with prec := Precision.fp16 }) }

/-- Modelled from the spec: the missing `on_loss_begin` converts the
reduced-precision output tensor to full precision, leaving its values
unchanged. -/
def on_loss_begin (t : Tensor) : Tensor :=
  { t with prec := Precision.fp32 }

/-- Modelled from the spec: the missing `on_backward_begin` scales the
scalar loss up by `loss_scale` before the backward pass and returns the
scaled loss. -/
def on_backward_begin (s : MPState) (last_loss : ℚ) : ℚ :=
  last_loss * s.cfg.loss_scale

/-- Modelled from the spec: the missing `on_backward_end` copies the
gradients from the reduced-precision compute copy onto the
full-precision master copy, dividing each one by `loss_scale`.  The
elementwise copy requires the two copies to have the same shape; a
mismatch is modelled as `none`. -/
def on_backward_end (s : MPState) : Option MPState :=
  if s.master_params.length = s.model_params.length then
    some { s with
      master_params := List.zipWith
        (fun m p => { m with grad := p.grad / s.cfg.loss_scale })
        s.master_params s.model_params }
  else none

/-- Modelled from the spec: the missing `on_step_end` copies the updated
full-precision master parameter values back into the compute copy and
clears the accumulated gradients.  The elementwise copy requires the two
copies to have the same shape; a mismatch is modelled as `none`. -/
def on_step_end (s : MPState) : Option MPState :=
  if s.master_params.length = s.model_params.length then
    some { s with
      model_params := List.zipWith
        (fun p m => { p with value := m.value, grad := 0 })
        s.model_params s.master_params }
  else none

/-- Modelled from the spec: the missing `on_train_end` removes the half
precision transforms added at `on_train_begin`, restoring every
parameter to its recorded precision and dropping the master copy.  The
elementwise restore requires the record to match the parameter list; a
mismatch is modelled as `none`. -/
def on_train_end (s : MPState) : Option MPState :=
  if s.saved_precs.length = s.model_params.length then
    some { s with
      model_params := List.zipWith
        (fun p pr => { p with prec := pr }) s.model_params s.saved_precs
      master_params := []
      saved_precs := [] }
  else none

/-- Writes gradients into the compute copy, one per parameter in order,
leaving any parameter beyond the supplied list untouched.  This models
the framework's backward pass, which accumulates gradients on the
reduced-precision compute copy. -/
def setGradsAux : List Param → List ℚ → List Param
  | [], _ => []
  | ps, [] => ps
  | p :: ps, g :: gs => { p with grad := g } :: setGradsAux ps gs

/-- Modelled from the spec: the external framework's backward pass writes
the gradients of the (scaled) loss onto the compute copy. -/
def set_grads (s : MPState) (gs : List ℚ) : MPState :=
  { s with model_params := setGradsAux s.model_params gs }

/-- Modelled from the spec: the optimizer updates the full-precision
master copy (and only it) from the master gradients, by a plain gradient
step with learning rate `lr`. -/
def optimizer_step (lr : ℚ) (s : MPState) : MPState :=
  { s with master_params :=
      s.master_params.map (fun m => { m with value := m.value - lr * m.grad }) }

/-- One training iteration between `on_train_begin` and `on_train_end`:
the backward pass writes gradients, `on_backward_end` moves them to the
master copy, the optimizer steps on the master copy, and `on_step_end`
syncs the compute copy. -/
def run_iteration (lr : ℚ) (s : MPState) (gs : List ℚ) : Option MPState :=
  (on_backward_end (set_grads s gs)).bind
    (fun t => on_step_end (optimizer_step lr t))

/-- A whole training phase: one iteration per gradient list in `gss`. -/
def run_iterations (lr : ℚ) : List (List ℚ) → MPState → Option MPState
  | [], s => some s
  | gs :: rest, s => (run_iteration lr s gs).bind (run_iterations lr rest)

/-- The invariant maintained between `on_train_begin` and `on_train_end`:
the master copy mirrors the compute copy parameter for parameter, every
master parameter is full precision, and every non-batchnorm compute
parameter is reduced precision. -/
def Inv (s : MPState) : Prop :=
  s.master_params.length = s.model_params.length ∧
  (∀ m ∈ s.master_params, m.prec = Precision.fp32) ∧
  (∀ p ∈ s.model_params, p.isBatchNorm = false → p.prec = Precision.fp16) ∧
  s.master_params.map Param.isBatchNorm = s.model_params.map Param.isBatchNorm

end MixedPrecision

/-- The learner object `to_fp16` operates on: the model parameters, a few
fields untouched by `to_fp16`, and the list of callback configurations
attached to it. -/
structure Learner where
  model : List Param
  data : Nat
  opt : Nat
  loss_func : Nat
  callbacks : List MPConfig
deriving DecidableEq, Repr

/-- Modelled from the spec: the missing `Learner.to_fp16` (signature
`to_fp16(learn, loss_scale=512.0, flat_master=False) -> Learner`) adds a
`MixedPrecision` callback to the learner and returns it. -/
def Learner.to_fp16 (learn : Learner) (loss_scale : ℚ) (flat_master : Bool) : Learner :=
  { learn with callbacks := learn.callbacks ++ [MixedPrecision.init loss_scale flat_master] }

/-- Modelled from the spec: `to_fp16` applied with its documented default
arguments. -/
def Learner.to_fp16_default (learn : Learner) : Learner :=
  Learner.to_fp16 learn 512 false

/-- The lifecycle hooks the external callback dispatcher invokes. -/
inductive Hook where
  | train_begin : Hook
  | loss_begin : Hook
  | backward_begin : Hook
  | backward_end : Hook
  | step_end : Hook
  | train_end : Hook
deriving DecidableEq, Repr

/-- Modelled from the spec: the hooks one training iteration invokes, in
the dispatcher's fixed order. -/
def iteration_hooks : List Hook :=
  [Hook.loss_begin, Hook.backward_begin, Hook.backward_end, Hook.step_end]

/-- Modelled from the spec: the full synchronous hook trace of a training
run of `n` iterations, bracketed by `on_train_begin` and
`on_train_end`. -/
def training_trace (n : Nat) : List Hook :=
  Hook.train_begin :: ((List.replicate n iteration_hooks).flatten ++ [Hook.train_end])

/-- Phases of the hook-order automaton: before training, between
iterations, and the three points inside an iteration. -/
inductive Phase where
  | idle : Phase
  | ready : Phase
  | afterLoss : Phase
  | afterBackwardBegin : Phase
  | afterBackwardEnd : Phase
  | finished : Phase
deriving DecidableEq, Repr

/-- The legal hook-order automaton: `on_train_begin` first, then in each
iteration `on_loss_begin`, `on_backward_begin`, `on_backward_end`,
`on_step_end` in that order, and finally `on_train_end`.  Any other hook
in any phase is illegal. -/
def hookStep : Phase → Hook → Option Phase
  | Phase.idle, Hook.train_begin => some Phase.ready
  | Phase.ready, Hook.loss_begin => some Phase.afterLoss
  | Phase.afterLoss, Hook.backward_begin => some Phase.afterBackwardBegin
  | Phase.afterBackwardBegin, Hook.backward_end => some Phase.afterBackwardEnd
  | Phase.afterBackwardEnd, Hook.step_end => some Phase.ready
  | Phase.ready, Hook.train_end => some Phase.finished
  | _, _ => none

/-- Whether a hook trace is accepted by the automaton starting from a
phase, ending in the `finished` phase. -/
def acceptsFrom : Phase → List Hook → Bool
  | p, [] => p == Phase.finished
  | p, h :: t =>
    match hookStep p h with
    | some q => acceptsFrom q t
    | none => false

namespace MixedPrecision

theorem setGradsAux_length :
    ∀ (ps : List Param) (gs : List ℚ), (setGradsAux ps gs).length = ps.length := by
  intro ps
  induction ps with
  | nil => intro gs; cases gs <;> rfl
  | cons p ps ih =>
    intro gs
    cases gs with
    | nil => rfl
    | cons g gs => simp [setGradsAux, ih]

theorem setGradsAux_map_grad :
    ∀ (ps : List Param) (gs : List ℚ), gs.length = ps.length →
    (setGradsAux ps gs).map Param.grad = gs := by
  intro ps
  induction ps with
  | nil =>
    intro gs h
    cases gs with
    | nil => rfl
    | cons g gs => simp at h
  | cons p ps ih =>
    intro gs h
    cases gs with
    | nil => simp at h
    | cons g gs =>
      simp only [List.length_cons, Nat.succ.injEq] at h
      simp [setGradsAux, ih gs h]

theorem setGradsAux_mem :
    ∀ (ps : List Param) (gs : List ℚ) (p : Param), p ∈ setGradsAux ps gs →
    ∃ q ∈ ps, p.value = q.value ∧ p.prec = q.prec ∧ p.isBatchNorm = q.isBatchNorm := by
  intro ps
  induction ps with
  | nil => intro gs p h; cases gs <;> simp [setGradsAux] at h
  | cons q qs ih =>
    intro gs p h
    cases gs with
    | nil => exact ⟨p, h, rfl, rfl, rfl⟩
    | cons g gs =>
      simp only [setGradsAux, List.mem_cons] at h
      rcases h with h | h
      · exact ⟨q, List.mem_cons_self q qs, by simp [h]⟩
      · rcases ih gs p h with ⟨r, hr, hv⟩
        exact ⟨r, List.mem_cons_of_mem q hr, hv⟩

theorem setGradsAux_map_isBatchNorm :
    ∀ (ps : List Param) (gs : List ℚ),
    (setGradsAux ps gs).map Param.isBatchNorm = ps.map Param.isBatchNorm := by
  intro ps
  induction ps with
  | nil => intro gs; cases gs <;> rfl
  | cons p ps ih =>
    intro gs
    cases gs with
    | nil => rfl
    | cons g gs => simp [setGradsAux, ih]

theorem map_zipWith_comp {α β γ δ : Type _} (g : γ → δ) (f : α → β → γ) :
    ∀ (a : List α) (b : List β),
    (List.zipWith f a b).map g = List.zipWith (fun x y => g (f x y)) a b := by
  intro a
  induction a with
  | nil => intro b; rfl
  | cons x xs ih =>
    intro b
    cases b with
    | nil => rfl
    | cons y ys => simp [ih]

theorem zipWith_snd_map {α β γ : Type _} (f : β → γ) :
    ∀ (a : List α) (b : List β), b.length ≤ a.length →
    List.zipWith (fun _ y => f y) a b = b.map f := by
  intro a
  induction a with
  | nil =>
    intro b h
    cases b with
    | nil => rfl
    | cons y ys => simp at h
  | cons x xs ih =>
    intro b h
    cases b with
    | nil => rfl
    | cons y ys =>
      simp only [List.length_cons, Nat.succ_le_succ_iff] at h
      simp [ih ys h]

theorem zipWith_fst_map {α β γ : Type _} (f : α → γ) :
    ∀ (a : List α) (b : List β), a.length ≤ b.length →
    List.zipWith (fun x _ => f x) a b = a.map f := by
  intro a
  induction a with
  | nil => intro b _; rfl
  | cons x xs ih =>
    intro b h
    cases b with
    | nil => simp at h
    | cons y ys =>
      simp only [List.length_cons, Nat.succ_le_succ_iff] at h
      simp [ih ys h]

theorem mem_zipWith_decomp {α β γ : Type _} (f : α → β → γ) :
    ∀ (a : List α) (b : List β) (c : γ), c ∈ List.zipWith f a b →
    ∃ x y, x ∈ a ∧ y ∈ b ∧ c = f x y := by
  intro a
  induction a with
  | nil => intro b c h; simp at h
  | cons x xs ih =>
    intro b c h
    cases b with
    | nil => simp at h
    | cons y ys =>
      simp only [List.zipWith_cons_cons, List.mem_cons] at h
      rcases h with h | h
      · exact ⟨x, y, List.mem_cons_self x xs, List.mem_cons_self y ys, h⟩
      · rcases ih ys c h with ⟨u, v, hu, hv, hc⟩
        exact ⟨u, v, List.mem_cons_of_mem x hu, List.mem_cons_of_mem y hv, hc⟩

theorem zipWith_map_same {α β γ δ : Type _} (g : β → γ → δ) (f : α → β) (h : α → γ) :
    ∀ (l : List α),
    List.zipWith g (l.map f) (l.map h) = l.map (fun x => g (f x) (h x)) := by
  intro l
  induction l with
  | nil => rfl
  | cons x xs ih => simp [ih]

end MixedPrecision

namespace MixedPrecision

/-- Claim C2: `on_train_begin` converts every trainable parameter to
reduced precision (fp16) except batchnorm parameters, which remain full
precision, and retains a full-precision (fp32) shadow copy of the
parameters (same values, fp32 storage). -/
theorem on_train_begin_converts_params (s : MPState)
    (h : ∀ p ∈ s.model_params, p.prec = Precision.fp32) :
    (∀ p ∈ (on_train_begin s).model_params,
        p.isBatchNorm = false → p.prec = Precision.fp16) ∧
    (∀ p ∈ (on_train_begin s).model_params,
        p.isBatchNorm = true → p.prec = Precision.fp32) ∧
    (on_train_begin s).master_params.map Param.value
      = s.model_params.map Param.value ∧
    (∀ m ∈ (on_train_begin s).master_params, m.prec = Precision.fp32) := by
  refine ⟨?_, ?_, ?_, ?_⟩
  · intro p hp hbn
    simp only [on_train_begin, List.mem_map] at hp
    rcases hp with ⟨q, hq, rfl⟩
    cases hqb : q.isBatchNorm with
    | true => simp [hqb] at hbn
    | false => simp [hqb]
  · intro p hp hbn
    simp only [on_train_begin, List.mem_map] at hp
    rcases hp with ⟨q, hq, rfl⟩
    cases hqb : q.isBatchNorm with
    | true => simpa [hqb] using h q hq
    | false => simp [hqb] at hbn
  · simp [on_train_begin, List.map_map, Function.comp]
  · intro m hm
    simp only [on_train_begin, List.mem_map] at hm
    rcases hm with ⟨q, hq, rfl⟩
    rfl

/-- Witness for C2 at a concrete two-parameter model (one batchnorm, one
plain parameter, both initially fp32). -/
theorem on_train_begin_converts_params_witness :
    (∀ p ∈ (on_train_begin ⟨⟨512, false⟩,
        [⟨1, 0, Precision.fp32, false⟩, ⟨2, 0, Precision.fp32, true⟩],
        [], []⟩).model_params,
        p.isBatchNorm = false → p.prec = Precision.fp16) ∧
    (∀ p ∈ (on_train_begin ⟨⟨512, false⟩,
        [⟨1, 0, Precision.fp32, false⟩, ⟨2, 0, Precision.fp32, true⟩],
        [], []⟩).model_params,
        p.isBatchNorm = true → p.prec = Precision.fp32) ∧
    (on_train_begin ⟨⟨512, false⟩,
        [⟨1, 0, Precision.fp32, false⟩, ⟨2, 0, Precision.fp32, true⟩],
        [], []⟩).master_params.map Param.value
      = [⟨(1 : ℚ), 0, Precision.fp32, false⟩,
         ⟨(2 : ℚ), 0, Precision.fp32, true⟩].map Param.value ∧
    (∀ m ∈ (on_train_begin ⟨⟨512, false⟩,
        [⟨1, 0, Precision.fp32, false⟩, ⟨2, 0, Precision.fp32, true⟩],
        [], []⟩).master_params, m.prec = Precision.fp32) :=
  on_train_begin_converts_params _ (by decide)

/-- Claim C3: `on_train_end` after `on_train_begin` restores every
parameter to the precision it had before, and in fact restores the
parameter list exactly. -/
theorem train_begin_end_round_trip (s : MPState) :
    ∃ t, on_train_end (on_train_begin s) = some t ∧
      t.model_params.map Param.prec = s.model_params.map Param.prec ∧
      t.model_params = s.model_params := by
  have key : ∀ x : Param,
      ({ (if x.isBatchNorm then x else { x with prec := Precision.fp16 })
          with prec := x.prec } : Param) = x := by
    intro x
    cases x with
    | mk v g pr b => cases b <;> simp
  have hmp : List.zipWith (fun (p : Param) (pr : Precision) => { p with prec := pr })
      (s.model_params.map (fun p =>
        if p.isBatchNorm then p else { p with prec := Precision.fp16 }))
      (s.model_params.map Param.prec) = s.model_params := by
    rw [zipWith_map_same]
    calc s.model_params.map (fun x =>
            ({ (if x.isBatchNorm then x else { x with prec := Precision.fp16 })
                with prec := x.prec } : Param))
        = s.model_params.map id := List.map_congr_left (fun a _ => key a)
      _ = s.model_params := List.map_id s.model_params
  have hl : (on_train_begin s).saved_precs.length
      = (on_train_begin s).model_params.length := by
    simp [on_train_begin]
  unfold on_train_end
  rw [if_pos hl]
  refine ⟨_, rfl, ?_, ?_⟩
  · show (List.zipWith _ (on_train_begin s).model_params
        (on_train_begin s).saved_precs).map Param.prec = _
    simp only [on_train_begin]
    rw [hmp]
  · show List.zipWith _ (on_train_begin s).model_params
        (on_train_begin s).saved_precs = _
    simp only [on_train_begin]
    exact hmp

/-- Claim C4: `on_step_end` copies the updated master values into the
compute copy and leaves every accumulated gradient of the compute copy
zero. -/
theorem on_step_end_syncs_and_clears (s : MPState)
    (h : s.master_params.length = s.model_params.length) :
    ∃ t, on_step_end s = some t ∧
      t.model_params.map Param.value = s.master_params.map Param.value ∧
      ∀ p ∈ t.model_params, p.grad = 0 := by
  unfold on_step_end
  rw [if_pos h]
  refine ⟨_, rfl, ?_, ?_⟩
  · rw [map_zipWith_comp]
    exact zipWith_snd_map Param.value _ _ (le_of_eq h)
  · intro p hp
    rcases mem_zipWith_decomp _ _ _ _ hp with ⟨a, b, _, _, rfl⟩
    rfl

/-- Witness for C4 at a concrete one-parameter state with a pending
gradient. -/
theorem on_step_end_syncs_and_clears_witness :
    ∃ t, on_step_end ⟨⟨512, false⟩, [⟨1, 2, Precision.fp16, false⟩],
        [⟨3, 4, Precision.fp32, false⟩], [Precision.fp32]⟩ = some t ∧
      t.model_params.map Param.value
        = [⟨(3 : ℚ), 4, Precision.fp32, false⟩].map Param.value ∧
      ∀ p ∈ t.model_params, p.grad = 0 :=
  on_step_end_syncs_and_clears _ rfl

/-- Claim C5: `on_loss_begin` converts the output tensor to full
precision without changing its values. -/
theorem on_loss_begin_widens (t : Tensor) :
    (on_loss_begin t).values = t.values ∧
    (on_loss_begin t).prec = Precision.fp32 :=
  ⟨rfl, rfl⟩

/-- Claim C9: the documented defaults are `loss_scale = 512` and
`flat_master = false` for both `MixedPrecision` and `to_fp16`, and
`to_fp16` with all-default arguments attaches exactly the configuration
of a directly constructed default `MixedPrecision`. -/
theorem default_config_agrees (l : Learner) :
    init_default.loss_scale = 512 ∧
    init_default.flat_master = false ∧
    Learner.to_fp16_default l = Learner.to_fp16 l 512 false ∧
    (Learner.to_fp16_default l).callbacks = l.callbacks ++ [init_default] :=
  ⟨rfl, rfl, rfl, rfl⟩

/-- Claim C10: `to_fp16` only appends a `MixedPrecision` callback to the
learner; every other field of the learner is unchanged. -/
theorem to_fp16_frame (l : Learner) (ls : ℚ) (fm : Bool) :
    (Learner.to_fp16 l ls fm).model = l.model ∧
    (Learner.to_fp16 l ls fm).data = l.data ∧
    (Learner.to_fp16 l ls fm).opt = l.opt ∧
    (Learner.to_fp16 l ls fm).loss_func = l.loss_func ∧
    (Learner.to_fp16 l ls fm).callbacks = l.callbacks ++ [init ls fm] :=
  ⟨rfl, rfl, rfl, rfl, rfl⟩

end MixedPrecision

namespace MixedPrecision

theorem on_backward_end_grads (s : MPState)
    (h : s.master_params.length = s.model_params.length) :
    ∃ t, on_backward_end s = some t ∧
      t.master_params.map Param.grad
        = s.model_params.map (fun p => p.grad / s.cfg.loss_scale) := by
  unfold on_backward_end
  rw [if_pos h]
  refine ⟨_, rfl, ?_⟩
  show (List.zipWith _ s.master_params s.model_params).map Param.grad = _
  rw [map_zipWith_comp]
  exact zipWith_snd_map (fun p => p.grad / s.cfg.loss_scale) _ _ (le_of_eq h.symm)

/-- Claim C1: `on_backward_begin` multiplies the loss by `loss_scale`,
and `on_backward_end` divides the gradients produced by the backward
pass on the scaled loss (which, by linearity, are the unscaled
gradients times `loss_scale`) by the same factor, so over exact
arithmetic the master gradients equal the gradients of the unscaled
loss. -/
theorem loss_scaling_round_trip (s : MPState) (loss : ℚ) (g : List ℚ)
    (hscale : s.cfg.loss_scale ≠ 0)
    (hlen : g.length = s.model_params.length) :
    on_backward_begin s loss = loss * s.cfg.loss_scale ∧
    ∃ t, on_backward_end (set_grads (on_train_begin s)
          (g.map (fun x => x * s.cfg.loss_scale))) = some t ∧
      t.master_params.map Param.grad = g := by
  refine ⟨rfl, ?_⟩
  set s2 := set_grads (on_train_begin s)
      (g.map (fun x => x * s.cfg.loss_scale)) with hs2
  have hmod2 : s2.model_params
      = setGradsAux (on_train_begin s).model_params
          (g.map (fun x => x * s.cfg.loss_scale)) := rfl
  have hmas2 : s2.master_params
      = s.model_params.map (fun p => { p with prec := Precision.fp32 }) := rfl
  have hcfg2 : s2.cfg = s.cfg := rfl
  have hlen2 : s2.model_params.length = s.model_params.length := by
    rw [hmod2, setGradsAux_length]
    simp [on_train_begin]
  have hc : s2.master_params.length = s2.model_params.length := by
    rw [hmas2, hlen2, List.length_map]
  obtain ⟨t, ht, hg⟩ := on_backward_end_grads s2 hc
  refine ⟨t, ht, ?_⟩
  rw [hg, hcfg2]
  have hmapgrad : s2.model_params.map Param.grad
      = g.map (fun x => x * s.cfg.loss_scale) := by
    rw [hmod2]
    apply setGradsAux_map_grad
    simp [on_train_begin, hlen]
  calc s2.model_params.map (fun p => p.grad / s.cfg.loss_scale)
      = (s2.model_params.map Param.grad).map (fun x => x / s.cfg.loss_scale) := by
        rw [List.map_map]; rfl
    _ = (g.map (fun x => x * s.cfg.loss_scale)).map
          (fun x => x / s.cfg.loss_scale) := by rw [hmapgrad]
    _ = g.map (fun x => x * s.cfg.loss_scale / s.cfg.loss_scale) := by
        rw [List.map_map]; rfl
    _ = g.map id := List.map_congr_left
          (fun a _ => mul_div_cancel_right₀ a hscale)
    _ = g := List.map_id g

/-- Witness for C1 at `loss_scale = 512`, one parameter, unscaled
gradient `3` and loss `2`. -/
theorem loss_scaling_round_trip_witness :
    on_backward_begin ⟨⟨512, false⟩, [⟨1, 0, Precision.fp32, false⟩], [], []⟩ 2
      = 2 * (⟨⟨512, false⟩, [⟨1, 0, Precision.fp32, false⟩], [], []⟩ :
          MPState).cfg.loss_scale ∧
    ∃ t, on_backward_end (set_grads
          (on_train_begin ⟨⟨512, false⟩, [⟨1, 0, Precision.fp32, false⟩], [], []⟩)
          ([(3 : ℚ)].map (fun x => x * (⟨⟨512, false⟩,
              [⟨1, 0, Precision.fp32, false⟩], [], []⟩ :
              MPState).cfg.loss_scale))) = some t ∧
      t.master_params.map Param.grad = [(3 : ℚ)] :=
  loss_scaling_round_trip _ 2 [3] (by norm_num) rfl

end MixedPrecision

namespace MixedPrecision

theorem inv_on_train_begin (s : MPState) : Inv (on_train_begin s) := by
  refine ⟨?_, ?_, ?_, ?_⟩
  · simp [on_train_begin]
  · intro m hm
    simp only [on_train_begin, List.mem_map] at hm
    rcases hm with ⟨q, hq, rfl⟩
    rfl
  · intro p hp hbn
    simp only [on_train_begin, List.mem_map] at hp
    rcases hp with ⟨q, hq, rfl⟩
    cases hqb : q.isBatchNorm with
    | true => simp [hqb] at hbn
    | false => simp [hqb]
  · simp only [on_train_begin, List.map_map]
    apply List.map_congr_left
    intro a _
    simp only [Function.comp_apply]
    cases hb : a.isBatchNorm <;> simp [hb]

theorem inv_set_grads (t : MPState) (gs : List ℚ) (ht : Inv t) :
    Inv (set_grads t gs) := by
  obtain ⟨h1, h2, h3, h4⟩ := ht
  refine ⟨?_, h2, ?_, ?_⟩
  · show t.master_params.length = (setGradsAux t.model_params gs).length
    rw [setGradsAux_length]
    exact h1
  · intro p hp hbn
    rcases setGradsAux_mem _ _ _ hp with ⟨q, hq, _, hprec, hbn2⟩
    rw [hprec]
    exact h3 q hq (by rw [← hbn2]; exact hbn)
  · show t.master_params.map _ = (setGradsAux t.model_params gs).map _
    rw [setGradsAux_map_isBatchNorm]
    exact h4

theorem inv_optimizer_step (lr : ℚ) (t : MPState) (ht : Inv t) :
    Inv (optimizer_step lr t) := by
  obtain ⟨h1, h2, h3, h4⟩ := ht
  refine ⟨?_, ?_, h3, ?_⟩
  · show (t.master_params.map _).length = t.model_params.length
    rw [List.length_map]
    exact h1
  · intro m hm
    simp only [optimizer_step, List.mem_map] at hm
    rcases hm with ⟨q, hq, rfl⟩
    exact h2 q hq
  · show (t.master_params.map _).map _ = t.model_params.map _
    rw [List.map_map]
    exact h4

theorem inv_on_backward_end (t u : MPState) (ht : Inv t)
    (hu : on_backward_end t = some u) : Inv u := by
  obtain ⟨h1, h2, h3, h4⟩ := ht
  unfold on_backward_end at hu
  rw [if_pos h1] at hu
  rcases Option.some.inj hu with rfl
  refine ⟨?_, ?_, h3, ?_⟩
  · show (List.zipWith _ t.master_params t.model_params).length
      = t.model_params.length
    rw [List.length_zipWith, h1, Nat.min_self]
  · intro m hm
    rcases mem_zipWith_decomp _ _ _ _ hm with ⟨a, b, ha, _, rfl⟩
    exact h2 a ha
  · show (List.zipWith _ t.master_params t.model_params).map _
      = t.model_params.map _
    exact (map_zipWith_comp Param.isBatchNorm _ _ _).trans
      ((zipWith_fst_map Param.isBatchNorm _ _ (le_of_eq h1)).trans h4)

theorem inv_on_step_end (t u : MPState) (ht : Inv t)
    (hu : on_step_end t = some u) : Inv u := by
  obtain ⟨h1, h2, h3, h4⟩ := ht
  unfold on_step_end at hu
  rw [if_pos h1] at hu
  rcases Option.some.inj hu with rfl
  refine ⟨?_, h2, ?_, ?_⟩
  · show t.master_params.length
      = (List.zipWith _ t.model_params t.master_params).length
    rw [List.length_zipWith, h1, Nat.min_self]
  · intro p hp hbn
    rcases mem_zipWith_decomp _ _ _ _ hp with ⟨a, b, ha, _, rfl⟩
    exact h3 a ha hbn
  · show t.master_params.map _
      = (List.zipWith _ t.model_params t.master_params).map _
    exact h4.trans (((map_zipWith_comp Param.isBatchNorm
        (fun p m => { p with value := m.value, grad := 0 })
        t.model_params t.master_params).trans
      (zipWith_fst_map Param.isBatchNorm t.model_params t.master_params
        (le_of_eq h1.symm))).symm)

/-- Claim C6: between `on_train_begin` and `on_train_end` the callback
invariant holds — the full-precision master copy mirrors the
reduced-precision compute copy parameter for parameter — it is
established by `on_train_begin` and preserved by every step, the
optimizer updates only the master copy, and the backward pass writes
only the compute copy. -/
theorem training_loop_invariant (s t : MPState) (gs : List ℚ) (lr : ℚ)
    (ht : Inv t) :
    Inv (on_train_begin s) ∧
    Inv (set_grads t gs) ∧
    Inv (optimizer_step lr t) ∧
    (∀ u, on_backward_end t = some u → Inv u) ∧
    (∀ u, on_step_end t = some u → Inv u) ∧
    (optimizer_step lr t).model_params = t.model_params ∧
    (set_grads t gs).master_params = t.master_params :=
  ⟨inv_on_train_begin s, inv_set_grads t gs ht, inv_optimizer_step lr t ht,
   fun u hu => inv_on_backward_end t u ht hu,
   fun u hu => inv_on_step_end t u ht hu, rfl, rfl⟩

/-- Witness for C6 at a concrete one-parameter state satisfying the
invariant. -/
theorem training_loop_invariant_witness :
    Inv (on_train_begin ⟨⟨512, false⟩, [⟨1, 0, Precision.fp32, false⟩], [], []⟩) ∧
    Inv (set_grads ⟨⟨512, false⟩, [⟨5, 0, Precision.fp16, false⟩],
        [⟨5, 0, Precision.fp32, false⟩], [Precision.fp32]⟩ [2]) ∧
    Inv (optimizer_step 1 ⟨⟨512, false⟩, [⟨5, 0, Precision.fp16, false⟩],
        [⟨5, 0, Precision.fp32, false⟩], [Precision.fp32]⟩) ∧
    (∀ u, on_backward_end ⟨⟨512, false⟩, [⟨5, 0, Precision.fp16, false⟩],
        [⟨5, 0, Precision.fp32, false⟩], [Precision.fp32]⟩ = some u → Inv u) ∧
    (∀ u, on_step_end ⟨⟨512, false⟩, [⟨5, 0, Precision.fp16, false⟩],
        [⟨5, 0, Precision.fp32, false⟩], [Precision.fp32]⟩ = some u → Inv u) ∧
    (optimizer_step 1 ⟨⟨512, false⟩, [⟨5, 0, Precision.fp16, false⟩],
        [⟨5, 0, Precision.fp32, false⟩], [Precision.fp32]⟩).model_params
      = [⟨(5 : ℚ), 0, Precision.fp16, false⟩] ∧
    (set_grads ⟨⟨512, false⟩, [⟨5, 0, Precision.fp16, false⟩],
        [⟨5, 0, Precision.fp32, false⟩], [Precision.fp32]⟩ [2]).master_params
      = [⟨(5 : ℚ), 0, Precision.fp32, false⟩] :=
  training_loop_invariant _ _ [2] 1
    ⟨rfl, by simp, by simp, rfl⟩

end MixedPrecision

theorem acceptsFrom_ready_iters (n : Nat) :
    acceptsFrom Phase.ready
      ((List.replicate n iteration_hooks).flatten ++ [Hook.train_end]) = true := by
  induction n with
  | zero => rfl
  | succ k ih =>
    rw [List.replicate_succ, List.flatten_cons, List.append_assoc]
    exact ih

theorem count_train_begin_flat (n : Nat) :
    ((List.replicate n iteration_hooks).flatten).count Hook.train_begin = 0 := by
  induction n with
  | zero => rfl
  | succ k ih =>
    rw [List.replicate_succ, List.flatten_cons, List.count_append, ih]
    rfl

theorem count_train_end_flat (n : Nat) :
    ((List.replicate n iteration_hooks).flatten).count Hook.train_end = 0 := by
  induction n with
  | zero => rfl
  | succ k ih =>
    rw [List.replicate_succ, List.flatten_cons, List.count_append, ih]
    rfl

theorem getLast_append_single {α : Type _} (a : α) :
    ∀ l : List α, (l ++ [a]).getLast? = some a := by
  intro l
  induction l with
  | nil => rfl
  | cons x xs ih =>
    rw [List.cons_append, List.getLast?_cons, ih]
    cases xs <;> rfl

/-- Claim C7: the dispatcher's hook trace for a training run of `n`
iterations is accepted by the fixed-order automaton (each iteration
invokes `on_loss_begin`, `on_backward_begin`, `on_backward_end`,
`on_step_end` in that order), starts with the single `on_train_begin`,
and ends with the single `on_train_end`. -/
theorem dispatcher_hook_order (n : Nat) :
    acceptsFrom Phase.idle (training_trace n) = true ∧
    (training_trace n).count Hook.train_begin = 1 ∧
    (training_trace n).count Hook.train_end = 1 ∧
    (training_trace n).head? = some Hook.train_begin ∧
    (training_trace n).getLast? = some Hook.train_end := by
  refine ⟨?_, ?_, ?_, rfl, ?_⟩
  · exact acceptsFrom_ready_iters n
  · show (Hook.train_begin ::
        ((List.replicate n iteration_hooks).flatten ++ [Hook.train_end])).count
        Hook.train_begin = 1
    rw [List.count_cons, List.count_append, count_train_begin_flat]
    rfl
  · show (Hook.train_begin ::
        ((List.replicate n iteration_hooks).flatten ++ [Hook.train_end])).count
        Hook.train_end = 1
    rw [List.count_cons, List.count_append, count_train_end_flat]
    rfl
  · show (Hook.train_begin ::
        ((List.replicate n iteration_hooks).flatten ++ [Hook.train_end])).getLast?
      = some Hook.train_end
    rw [← List.cons_append]
    exact getLast_append_single Hook.train_end _

namespace MixedPrecision

theorem on_backward_end_shape (s : MPState)
    (h : s.master_params.length = s.model_params.length) :
    ∃ t, on_backward_end s = some t ∧
      t.model_params = s.model_params ∧
      t.master_params.length = s.model_params.length ∧
      t.saved_precs = s.saved_precs := by
  unfold on_backward_end
  rw [if_pos h]
  refine ⟨_, rfl, rfl, ?_, rfl⟩
  show (List.zipWith _ s.master_params s.model_params).length = _
  rw [List.length_zipWith, h, Nat.min_self]

theorem on_step_end_shape (s : MPState)
    (h : s.master_params.length = s.model_params.length) :
    ∃ t, on_step_end s = some t ∧
      t.model_params.length = s.model_params.length ∧
      t.master_params = s.master_params ∧
      t.saved_precs = s.saved_precs := by
  unfold on_step_end
  rw [if_pos h]
  refine ⟨_, rfl, ?_, rfl, rfl⟩
  show (List.zipWith _ s.model_params s.master_params).length = _
  rw [List.length_zipWith, h, Nat.min_self]

theorem run_iteration_preserves (lr : ℚ) (s : MPState) (gs : List ℚ)
    (h1 : s.master_params.length = s.model_params.length) :
    ∃ t, run_iteration lr s gs = some t ∧
      t.master_params.length = t.model_params.length ∧
      t.model_params.length = s.model_params.length ∧
      t.saved_precs = s.saved_precs := by
  have hsg_model : (set_grads s gs).model_params.length
      = s.model_params.length := by
    show (setGradsAux _ _).length = _
    rw [setGradsAux_length]
  have hcond1 : (set_grads s gs).master_params.length
      = (set_grads s gs).model_params.length := by
    show s.master_params.length = _
    rw [hsg_model]
    exact h1
  obtain ⟨t1, ht1, e1, l1, p1⟩ := on_backward_end_shape (set_grads s gs) hcond1
  have hcond2 : (optimizer_step lr t1).master_params.length
      = (optimizer_step lr t1).model_params.length := by
    show (t1.master_params.map _).length = t1.model_params.length
    rw [List.length_map, l1, e1]
  obtain ⟨t2, ht2, l2, e2, p2⟩ := on_step_end_shape (optimizer_step lr t1) hcond2
  refine ⟨t2, ?_, ?_, ?_, ?_⟩
  · show (on_backward_end (set_grads s gs)).bind _ = some t2
    rw [ht1]
    exact ht2
  · rw [e2, l2]
    exact hcond2
  · rw [l2]
    show t1.model_params.length = _
    rw [e1, hsg_model]
  · rw [p2]
    show t1.saved_precs = _
    rw [p1]
    rfl

theorem run_iterations_total (lr : ℚ) :
    ∀ (gss : List (List ℚ)) (s : MPState),
    s.master_params.length = s.model_params.length →
    ∃ t, run_iterations lr gss s = some t ∧
      t.master_params.length = t.model_params.length ∧
      t.model_params.length = s.model_params.length ∧
      t.saved_precs = s.saved_precs := by
  intro gss
  induction gss with
  | nil => intro s h; exact ⟨s, rfl, h, rfl, rfl⟩
  | cons gs rest ih =>
    intro s h
    obtain ⟨t1, ht1, h1, hm1, hs1⟩ := run_iteration_preserves lr s gs h
    obtain ⟨t2, ht2, h2, hm2, hs2⟩ := ih t1 h1
    refine ⟨t2, ?_, h2, ?_, ?_⟩
    · show (run_iteration lr s gs).bind _ = some t2
      rw [ht1]
      exact ht2
    · rw [hm2, hm1]
    · rw [hs2, hs1]

/-- Claim C8: for every starting state, gradient stream, and learning
rate, a full training phase started by `on_train_begin` runs to
completion: every iteration's hooks return a result (no `none` from any
hook) and the final `on_train_end` also returns a result — the error
case of each hook is unreachable from the lifecycle. -/
theorem hooks_never_fail (s0 : MPState) (gss : List (List ℚ)) (lr : ℚ) :
    ∃ t, run_iterations lr gss (on_train_begin s0) = some t ∧
      ∃ u, on_train_end t = some u := by
  have h0 : (on_train_begin s0).master_params.length
      = (on_train_begin s0).model_params.length := by
    simp [on_train_begin]
  obtain ⟨t, ht, _, hml, hsp⟩ := run_iterations_total lr gss (on_train_begin s0) h0
  refine ⟨t, ht, ?_⟩
  unfold on_train_end
  rw [if_pos]
  · exact ⟨_, rfl⟩
  · rw [hsp, hml]
    simp [on_train_begin]

end MixedPrecision
